import Mathlib

/-!
Verification development for the Quordle engine (multi-board word game,
Latin and Korean Hangul modes).

Shallow embedding conventions:
* JS strings are modelled as lists of UTF-16 code units (`List Nat`);
  every character relevant to the engine lies in the BMP, so one code
  unit is one character.
* JS `Map<string, number>` count tables are modelled as total functions
  `Nat → Int` (a missing key reads as `0`, mirroring the `|| 0` idiom).
* JS `Set<string>` jamo sets are modelled as lists queried by membership
  (insertion order is kept; duplicates do not change membership).
* Functions that `throw` are modelled with `Except String`.
* Unbounded loops (the daily selector's rejection sampling) take explicit
  fuel and return `none` when the fuel runs out.
-/

namespace Quordle

/-- Per-position outcome of comparing one guess symbol to one target
symbol (from engine/src/types.ts, type LetterResult). -/
inductive LetterResult where
  | correct
  | present
  | absent
deriving DecidableEq, Repr

open LetterResult

/-- Case folding of one UTF-16 code unit, modelling
String.prototype.toLowerCase on the Basic Latin range the engine uses
(A–Z map to a–z; every other code unit used by the game, including all
Hangul, is fixed by toLowerCase). -/
def toLowerChar (c : Nat) : Nat :=
  if 65 ≤ c ∧ c ≤ 90 then c + 32 else c

/-- String.prototype.toLowerCase over a whole string. -/
def strToLower (s : List Nat) : List Nat :=
  s.map toLowerChar

/-- Pointwise update of a count table (JS Map.set). -/
def updFun (f : Nat → Int) (k : Nat) (v : Int) : Nat → Int :=
  fun x => if x = k then v else f x

/-- The target-letter count table (the first loop of evaluateGuess /
evaluateGuessSyllable: for each symbol of the target, increment its
count; Map.get(x) || 0 reads 0 for absent keys). -/
def countsInit (target : List Nat) : Nat → Int :=
  target.foldl (fun f ch => updFun f ch (f ch + 1)) (fun _ => 0)

/-- First pass of the two-pass evaluator, over the zipped
(guess, target) positions: mark correct on exact match and decrement
that symbol's remaining count. Returns the per-position results of the
first pass together with the updated count table. -/
def pass1 : List (Nat × Nat) → (Nat → Int) → List LetterResult × (Nat → Int)
  | [], cnt => ([], cnt)
  | (g, t) :: rest, cnt =>
    if g = t then
      let r := pass1 rest (updFun cnt g (cnt g - 1))
      (correct :: r.1, r.2)
    else
      let r := pass1 rest cnt
      (absent :: r.1, r.2)

/-- Second pass: for each non-correct position, award present while the
guess symbol's remaining count is positive, consuming one unit. -/
def pass2 : List (Nat × LetterResult) → (Nat → Int) → List LetterResult
  | [], _ => []
  | (g, r) :: rest, cnt =>
    if r = correct then
      correct :: pass2 rest cnt
    else if cnt g > 0 then
      present :: pass2 rest (updFun cnt g (cnt g - 1))
    else
      absent :: pass2 rest cnt

/-- The shared two-pass core of evaluateGuess (engine/src/evaluator.ts)
and evaluateGuessSyllable (engine/src/evaluatorKo.ts), on equal-length
symbol lists. -/
def evalCore (guess target : List Nat) : List LetterResult :=
  let p := pass1 (guess.zip target) (countsInit target)
  pass2 (guess.zip p.1) p.2

/-- evaluateGuess (engine/src/evaluator.ts): lowercases both arguments,
throws on length mismatch, then runs the two-pass algorithm. -/
def evaluateGuess (guess target : List Nat) : Except String (List LetterResult) :=
  let g := strToLower guess
  let t := strToLower target
  if g.length ≠ t.length then .error "length mismatch"
  else .ok (evalCore g t)

/-- evaluateGuessSyllable (engine/src/evaluatorKo.ts): the same two-pass
algorithm on whole Hangul syllable blocks, no case folding. -/
def evaluateGuessSyllable (guess target : List Nat) : Except String (List LetterResult) :=
  if guess.length ≠ target.length then .error "length mismatch"
  else .ok (evalCore guess target)

/-- isSolved (engine/src/evaluator.ts): every position correct. -/
def isSolved (res : List LetterResult) : Bool :=
  res.all (fun r => r = correct)

/-! ## Hangul codec (engine/src/jamo.ts)

Jamo and syllables are code units; the tables below carry the same
characters as the source arrays (the glyph literal is converted to its
code point with Char.toNat). -/

/-- ONSETS (초성), 19 entries. -/
def ONSETS : List Nat :=
  [Char.toNat 'ㄱ', Char.toNat 'ㄲ', Char.toNat 'ㄴ', Char.toNat 'ㄷ', Char.toNat 'ㄸ',
   Char.toNat 'ㄹ', Char.toNat 'ㅁ', Char.toNat 'ㅂ', Char.toNat 'ㅃ', Char.toNat 'ㅅ',
   Char.toNat 'ㅆ', Char.toNat 'ㅇ', Char.toNat 'ㅈ', Char.toNat 'ㅉ', Char.toNat 'ㅊ',
   Char.toNat 'ㅋ', Char.toNat 'ㅌ', Char.toNat 'ㅍ', Char.toNat 'ㅎ']

/-- VOWELS (중성), 21 entries. -/
def VOWELS : List Nat :=
  [Char.toNat 'ㅏ', Char.toNat 'ㅐ', Char.toNat 'ㅑ', Char.toNat 'ㅒ', Char.toNat 'ㅓ',
   Char.toNat 'ㅔ', Char.toNat 'ㅕ', Char.toNat 'ㅖ', Char.toNat 'ㅗ', Char.toNat 'ㅘ',
   Char.toNat 'ㅙ', Char.toNat 'ㅚ', Char.toNat 'ㅛ', Char.toNat 'ㅜ', Char.toNat 'ㅝ',
   Char.toNat 'ㅞ', Char.toNat 'ㅟ', Char.toNat 'ㅠ', Char.toNat 'ㅡ', Char.toNat 'ㅢ',
   Char.toNat 'ㅣ']

/-- CODAS (종성), 28 entries; index 0 is the empty string in the source
(no coda), modelled as code 0. -/
def CODAS : List Nat :=
  [0, Char.toNat 'ㄱ', Char.toNat 'ㄲ', Char.toNat 'ㄳ', Char.toNat 'ㄴ', Char.toNat 'ㄵ',
   Char.toNat 'ㄶ', Char.toNat 'ㄷ', Char.toNat 'ㄹ', Char.toNat 'ㄺ', Char.toNat 'ㄻ',
   Char.toNat 'ㄼ', Char.toNat 'ㄽ', Char.toNat 'ㄾ', Char.toNat 'ㄿ', Char.toNat 'ㅀ',
   Char.toNat 'ㅁ', Char.toNat 'ㅂ', Char.toNat 'ㅄ', Char.toNat 'ㅅ', Char.toNat 'ㅆ',
   Char.toNat 'ㅇ', Char.toNat 'ㅈ', Char.toNat 'ㅊ', Char.toNat 'ㅋ', Char.toNat 'ㅌ',
   Char.toNat 'ㅍ', Char.toNat 'ㅎ']

def HANGUL_BASE : Nat := 0xAC00
def VOWEL_COUNT : Nat := 21
def CODA_COUNT : Nat := 28

/-- isHangulSyllable: composed syllable block 가–힣 (U+AC00–U+D7A3). -/
def isHangulSyllable (c : Nat) : Bool :=
  0xAC00 ≤ c && c ≤ 0xD7A3

/-- DecomposedSyllable (engine/src/jamo.ts): coda none means no final. -/
structure DecomposedSyllable where
  onset : Nat
  vowel : Nat
  coda : Option Nat
deriving DecidableEq, Repr

/-- decomposeHangul: arithmetic decomposition of a syllable block into
table indices; throws (here: none) when the input is not a composed
syllable. -/
def decomposeHangul (syllable : Nat) : Option DecomposedSyllable :=
  if isHangulSyllable syllable then
    let code := syllable - HANGUL_BASE
    let onsetIndex := code / (VOWEL_COUNT * CODA_COUNT)
    let vowelIndex := (code % (VOWEL_COUNT * CODA_COUNT)) / CODA_COUNT
    let codaIndex := code % CODA_COUNT
    some { onset := ONSETS.getD onsetIndex 0
           vowel := VOWELS.getD vowelIndex 0
           coda := if codaIndex = 0 then none else some (CODAS.getD codaIndex 0) }
  else none

/-- composeHangul: looks each jamo up in its table (indexOf) and throws
(here: none) on a -1; a missing coda argument contributes index 0. -/
def composeHangul (onset vowel : Nat) (coda : Option Nat) : Option Nat :=
  if onset ∈ ONSETS ∧ vowel ∈ VOWELS ∧ (∀ cd ∈ coda, cd ∈ CODAS) then
    let onsetIndex := ONSETS.indexOf onset
    let vowelIndex := VOWELS.indexOf vowel
    let codaIndex := match coda with
      | none => 0
      | some cd => CODAS.indexOf cd
    some (HANGUL_BASE + (onsetIndex * VOWEL_COUNT + vowelIndex) * CODA_COUNT + codaIndex)
  else none

/-- splitCompoundCoda: the fixed 11-entry compound-coda table. -/
def splitCompoundCoda (coda : Nat) : Option (Nat × Nat) :=
  if coda = Char.toNat 'ㄳ' then some (Char.toNat 'ㄱ', Char.toNat 'ㅅ')
  else if coda = Char.toNat 'ㄵ' then some (Char.toNat 'ㄴ', Char.toNat 'ㅈ')
  else if coda = Char.toNat 'ㄶ' then some (Char.toNat 'ㄴ', Char.toNat 'ㅎ')
  else if coda = Char.toNat 'ㄺ' then some (Char.toNat 'ㄹ', Char.toNat 'ㄱ')
  else if coda = Char.toNat 'ㄻ' then some (Char.toNat 'ㄹ', Char.toNat 'ㅁ')
  else if coda = Char.toNat 'ㄼ' then some (Char.toNat 'ㄹ', Char.toNat 'ㅂ')
  else if coda = Char.toNat 'ㄽ' then some (Char.toNat 'ㄹ', Char.toNat 'ㅅ')
  else if coda = Char.toNat 'ㄾ' then some (Char.toNat 'ㄹ', Char.toNat 'ㅌ')
  else if coda = Char.toNat 'ㄿ' then some (Char.toNat 'ㄹ', Char.toNat 'ㅍ')
  else if coda = Char.toNat 'ㅀ' then some (Char.toNat 'ㄹ', Char.toNat 'ㅎ')
  else if coda = Char.toNat 'ㅄ' then some (Char.toNat 'ㅂ', Char.toNat 'ㅅ')
  else none

/-- combineCodas: the inverse two-consonant lookup table. -/
def combineCodas (first second : Nat) : Option Nat :=
  if first = Char.toNat 'ㄱ' ∧ second = Char.toNat 'ㅅ' then some (Char.toNat 'ㄳ')
  else if first = Char.toNat 'ㄴ' ∧ second = Char.toNat 'ㅈ' then some (Char.toNat 'ㄵ')
  else if first = Char.toNat 'ㄴ' ∧ second = Char.toNat 'ㅎ' then some (Char.toNat 'ㄶ')
  else if first = Char.toNat 'ㄹ' ∧ second = Char.toNat 'ㄱ' then some (Char.toNat 'ㄺ')
  else if first = Char.toNat 'ㄹ' ∧ second = Char.toNat 'ㅁ' then some (Char.toNat 'ㄻ')
  else if first = Char.toNat 'ㄹ' ∧ second = Char.toNat 'ㅂ' then some (Char.toNat 'ㄼ')
  else if first = Char.toNat 'ㄹ' ∧ second = Char.toNat 'ㅅ' then some (Char.toNat 'ㄽ')
  else if first = Char.toNat 'ㄹ' ∧ second = Char.toNat 'ㅌ' then some (Char.toNat 'ㄾ')
  else if first = Char.toNat 'ㄹ' ∧ second = Char.toNat 'ㅍ' then some (Char.toNat 'ㄿ')
  else if first = Char.toNat 'ㄹ' ∧ second = Char.toNat 'ㅎ' then some (Char.toNat 'ㅀ')
  else if first = Char.toNat 'ㅂ' ∧ second = Char.toNat 'ㅅ' then some (Char.toNat 'ㅄ')
  else none

/-! ## Korean jamo-hint layer (engine/src/evaluatorKo.ts) -/

/-- JamoHint (engine/src/types.ts): coda none when neither side has a
final consonant at that position. -/
structure JamoHint where
  onset : LetterResult
  vowel : LetterResult
  coda : Option LetterResult
deriving DecidableEq, Repr

/-- KoSyllableResult (engine/src/types.ts). -/
structure KoSyllableResult where
  syllable : LetterResult
  jamoHints : Option JamoHint
deriving DecidableEq, Repr

/-- One iteration of the target-set loop at the top of evaluateGuessKo:
add the syllable's vowel to the vowel set and its onset, coda, and
split compound-coda components to the consonant set. -/
def jamoSetsStep (acc : List Nat × List Nat) (ch : Nat) : List Nat × List Nat :=
  if isHangulSyllable ch then
    match decomposeHangul ch with
    | some d =>
      let vows := acc.1 ++ [d.vowel]
      let cons := acc.2 ++ [d.onset]
      match d.coda with
      | some cd =>
        let cons2 := cons ++ [cd]
        match splitCompoundCoda cd with
        | some s => (vows, cons2 ++ [s.1, s.2])
        | none => (vows, cons2)
      | none => (vows, cons)
    | none => acc
  else acc

/-- The target jamo sets built at the top of evaluateGuessKo: the vowel
set from every target syllable's vowel, the consonant set from every
target syllable's onset and coda, with compound codas additionally
expanded into their two components.  Returns (vowel set, consonant
set); JS Sets are modelled as lists in insertion order. -/
def targetJamoSets (target : List Nat) : List Nat × List Nat :=
  target.foldl jamoSetsStep ([], [])

/-- computeJamoHints (engine/src/evaluatorKo.ts): per-position jamo
hints for one non-green syllable, with cross-slot consonant matching
against the whole-target sets and compound-coda decomposition of the
guess coda. -/
def computeJamoHints (guessSyllable targetSyllable : Nat)
    (allTargetVowelSet allTargetConsonantSet : List Nat) : JamoHint :=
  if isHangulSyllable guessSyllable ∧ isHangulSyllable targetSyllable then
    match decomposeHangul guessSyllable, decomposeHangul targetSyllable with
    | some g, some t =>
      let onsetResult : LetterResult :=
        if g.onset = t.onset then correct
        else if g.onset ∈ allTargetConsonantSet then present
        else absent
      let vowelResult : LetterResult :=
        if g.vowel = t.vowel then correct
        else if g.vowel ∈ allTargetVowelSet then present
        else absent
      let codaResult : Option LetterResult :=
        if g.coda ≠ none ∨ t.coda ≠ none then
          match g.coda with
          | none => some absent
          | some gc =>
            if some gc = t.coda then some correct
            else if gc ∈ allTargetConsonantSet then some present
            else
              match splitCompoundCoda gc with
              | some s =>
                if s.1 ∈ allTargetConsonantSet ∨ s.2 ∈ allTargetConsonantSet then
                  some present
                else some absent
              | none => some absent
        else none
      { onset := onsetResult, vowel := vowelResult, coda := codaResult }
    | _, _ => { onset := absent, vowel := absent, coda := none }
  else { onset := absent, vowel := absent, coda := none }

/-- evaluateGuessKo (engine/src/evaluatorKo.ts): syllable-level results
plus jamo hints for the non-green positions. -/
def evaluateGuessKo (guess target : List Nat) : Except String (List KoSyllableResult) :=
  match evaluateGuessSyllable guess target with
  | .error e => .error e
  | .ok syllableResults =>
    let sets := targetJamoSets target
    .ok <| List.zipWith
      (fun gt r =>
        if r = correct then { syllable := correct, jamoHints := none }
        else { syllable := r
               jamoHints := some (computeJamoHints gt.1 gt.2 sets.1 sets.2) })
      (guess.zip target) syllableResults

/-! ## Language configuration (engine/src/languageConfig.ts) -/

inductive Language where
  | en
  | ko
deriving DecidableEq, Repr

/-- wordLength of EN_CONFIG (5) and KO_CONFIG (2). -/
def wordLength : Language → Nat
  | .en => 5
  | .ko => 2

/-- One-character class of validateCharRegex:
en has [a-zA-Z], ko has the composed-syllable range. -/
def validateCharOk : Language → Nat → Bool
  | .en, c => (65 ≤ c && c ≤ 90) || (97 ≤ c && c ≤ 122)
  | .ko, c => isHangulSyllable c

/-- validateCharRegex.test: the anchored one-or-more regex accepts
exactly the nonempty strings of legal characters. -/
def validateRegexTest (language : Language) (s : List Nat) : Bool :=
  !s.isEmpty && s.all (validateCharOk language)

/-- One-character keep-class of filterCharRegex (the replace removes the
complement): en keeps [a-z], ko keeps composed Hangul syllables. -/
def filterCharKeep : Language → Nat → Bool
  | .en, c => 97 ≤ c && c ≤ 122
  | .ko, c => isHangulSyllable c

/-! ## Game state machine (engine/src/game.ts) -/

/-- BoardState (engine/src/types.ts).  The optional koResults field is
modelled as a plain list: the source reads it only through
(board.koResults || []) and board.koResults?.[i], so the absent field
and the empty list are indistinguishable. -/
structure BoardState where
  targetWord : List Nat
  guesses : List (List Nat)
  results : List (List LetterResult)
  koResults : List (List KoSyllableResult)
  solved : Bool
  solvedOnGuess : Option Nat
deriving DecidableEq, Repr

/-- GameState (engine/src/types.ts); the four boards are kept as a list
built with exactly four entries by createGame. -/
structure GameState where
  boards : List BoardState
  currentGuess : List Nat
  guessCount : Nat
  maxGuesses : Nat
  gameOver : Bool
  won : Bool
  language : Language
deriving DecidableEq, Repr

/-- GameConfig (engine/src/types.ts): maxGuesses and language are
optional with destructuring defaults 9 and en. -/
structure GameConfig where
  targetWords : List (List Nat)
  maxGuesses : Option Nat
  language : Option Language
deriving Repr

def DEFAULT_MAX_GUESSES : Nat := 9

/-- createBoardState (engine/src/game.ts). -/
def createBoardState (targetWord : List Nat) : BoardState :=
  { targetWord := strToLower targetWord
    guesses := []
    results := []
    koResults := []
    solved := false
    solvedOnGuess := none }

/-- createGame (engine/src/game.ts). -/
def createGame (config : GameConfig) : GameState :=
  { boards :=
      [createBoardState (config.targetWords.getD 0 []),
       createBoardState (config.targetWords.getD 1 []),
       createBoardState (config.targetWords.getD 2 []),
       createBoardState (config.targetWords.getD 3 [])]
    currentGuess := []
    guessCount := 0
    maxGuesses := config.maxGuesses.getD DEFAULT_MAX_GUESSES
    gameOver := false
    won := false
    language := config.language.getD .en }

/-- validateGuess (engine/src/game.ts): length check then character
class; returns the valid flag (the error text is irrelevant to every
claim and omitted). -/
def validateGuess (guess : List Nat) (language : Language) : Bool :=
  if guess.length ≠ wordLength language then false
  else validateRegexTest language guess

/-- The per-board update inside submitGuess.  A board that was already
solved gets the guess appended with the previous result repeated; an
unsolved board is evaluated (throwing evaluator errors propagate). -/
def processBoard (language : Language) (guessCount : Nat) (normalizedGuess : List Nat)
    (board : BoardState) : Except String BoardState :=
  if board.solved then
    -- prevResult is results[length-1]; boards are only ever marked
    -- solved together with a recorded result, so the list is nonempty
    -- in every reachable state (getD [] covers the unreachable case).
    let prevResult := board.results.getLastD []
    let prevKoResult := board.koResults.getLast?
    .ok { board with
          guesses := board.guesses ++ [normalizedGuess]
          results := board.results ++ [prevResult]
          koResults :=
            match language, prevKoResult with
            | .ko, some pk => board.koResults ++ [pk]
            | _, _ => board.koResults }
  else if language = .ko then
    match evaluateGuessSyllable normalizedGuess board.targetWord with
    | .error e => .error e
    | .ok syllableResult =>
      match evaluateGuessKo normalizedGuess board.targetWord with
      | .error e => .error e
      | .ok koResult =>
        let solved := isSolved syllableResult
        .ok { board with
              guesses := board.guesses ++ [normalizedGuess]
              results := board.results ++ [syllableResult]
              koResults := board.koResults ++ [koResult]
              solved := solved
              solvedOnGuess := if solved then some (guessCount + 1) else none }
  else
    match evaluateGuess normalizedGuess board.targetWord with
    | .error e => .error e
    | .ok result =>
      let solved := isSolved result
      .ok { board with
            guesses := board.guesses ++ [normalizedGuess]
            results := board.results ++ [result]
            solved := solved
            solvedOnGuess := if solved then some (guessCount + 1) else none }

/-- state.boards.map over the per-board update, with a thrown evaluator
error propagating out (the JS .map aborts on the first throw). -/
def mapBoards (f : BoardState → Except String BoardState) :
    List BoardState → Except String (List BoardState)
  | [] => .ok []
  | b :: rest =>
    match f b with
    | .error e => .error e
    | .ok b2 =>
      match mapBoards f rest with
      | .error e => .error e
      | .ok rest2 => .ok (b2 :: rest2)

/-- submitGuess (engine/src/game.ts): no-op when gameOver or when
validation fails; otherwise evaluates every board, increments the
guess counter and recomputes won/gameOver. -/
def submitGuess (state : GameState) (guess : List Nat) : Except String GameState :=
  if state.gameOver then .ok state
  else
    let language := state.language
    if !validateGuess guess language then .ok state
    else
      let normalizedGuess := if language = .ko then guess else strToLower guess
      match mapBoards (processBoard language state.guessCount normalizedGuess) state.boards with
      | .error e => .error e
      | .ok newBoards =>
        let newGuessCount := state.guessCount + 1
        let allSolved := newBoards.all (fun b => b.solved)
        let outOfGuesses := newGuessCount ≥ state.maxGuesses
        .ok { state with
              boards := newBoards
              currentGuess := []
              guessCount := newGuessCount
              gameOver := allSolved || outOfGuesses
              won := allSolved }

/-- setCurrentGuess (engine/src/game.ts): no-op when gameOver; Korean
input is filtered to Hangul then truncated; English input is truncated,
lowercased, then filtered to [a-z]. -/
def setCurrentGuess (state : GameState) (guess : List Nat) : GameState :=
  if state.gameOver then state
  else
    let language := state.language
    let limited :=
      if language = .ko then
        (guess.filter (filterCharKeep .ko)).take (wordLength .ko)
      else
        ((guess.take (wordLength .en)).map toLowerChar).filter (filterCharKeep .en)
    { state with currentGuess := limited }

/-! ## Keyboard map (engine/src/game.ts, computeKeyboardMap) -/

/-- The jamo keys contributed by one guess syllable in the Korean
branch: onset, vowel, and the coda if present. -/
def jamosOf (ch : Nat) : List Nat :=
  match decomposeHangul ch with
  | some d => [d.onset, d.vowel] ++ (match d.coda with | some c => [c] | none => [])
  | none => []

/-- The (key, tile status) contributions of one scored guess row: per
letter for English, per decomposed jamo of each Hangul syllable for
Korean, always paired with the syllable-level tile status of that
position. -/
def posContribs (language : Language) (guess : List Nat)
    (result : List LetterResult) : List (Nat × LetterResult) :=
  match language with
  | .ko =>
    (guess.zip result).flatMap
      (fun p => if isHangulSyllable p.1 then (jamosOf p.1).map (fun j => (j, p.2)) else [])
  | .en => guess.zip result

/-- The guess/result rows of a board that the keyboard fold keeps:
rows with index ≥ solvedOnGuess (1-indexed) are repeats recorded after
the board was solved and are skipped. -/
def keptRows (b : BoardState) : List (List Nat × List LetterResult) :=
  ((b.guesses.zip b.results).enum.filter
    (fun p =>
      match b.solvedOnGuess with
      | some k => decide (p.1 < k)
      | none => true)).map Prod.snd

/-- All (key, status) contributions of a game, in the fold order of
computeKeyboardMap (boards outer, guess rows inner, positions and jamo
within a row left to right). -/
def allContribs (state : GameState) : List (Nat × LetterResult) :=
  state.boards.flatMap
    (fun b => (keptRows b).flatMap (fun gr => posContribs state.language gr.1 gr.2))

/-- The three-branch precedence update of computeKeyboardMap (set on
correct; set on present unless already correct; set on absent only when
unset). -/
def mergeStatus (m : Nat → Option LetterResult) (p : Nat × LetterResult) :
    Nat → Option LetterResult :=
  match p.2 with
  | correct => fun x => if x = p.1 then some correct else m x
  | present =>
    if m p.1 = some correct then m
    else fun x => if x = p.1 then some present else m x
  | absent =>
    if m p.1 = none then fun x => if x = p.1 then some absent else m x
    else m

/-- computeKeyboardMap (engine/src/game.ts): fold every kept
contribution into the status record (modelled as a partial map). -/
def computeKeyboardMap (state : GameState) : Nat → Option LetterResult :=
  (allContribs state).foldl mergeStatus (fun _ => none)

/-! ## Daily selector (engine/src/daily.ts and the server copy, which
adds the per-language seed salt) -/

def M32 : Nat := 4294967296

/-- dateKeyToSeed: the djb2 accumulating hash, 32-bit. -/
def dateKeyToSeed (dateKey : List Nat) : Nat :=
  dateKey.foldl (fun hash c => Nat.xor (hash * 33 % M32) c) 5381

/-- One step of the mulberry32 PRNG: returns the new state and the raw
32-bit output u; the JS random() value is u / 2^32. -/
def mulberryStep (state : Nat) : Nat × Nat :=
  let s := (state + 0x6D2B79F5) % M32
  let t1 := (Nat.xor s (s / 2 ^ 15) * Nat.lor s 1) % M32
  let t2 := Nat.xor t1 ((t1 + Nat.xor t1 (t1 / 2 ^ 7) * Nat.lor t1 61 % M32) % M32)
  (s, Nat.xor t2 (t2 / 2 ^ 14))

/-- The do/while rejection draw inside selectDistinctIndices:
Math.floor(random() * length) is u * length / 2^32; redraw while the
index is already used.  The source loop is unbounded; fuel models it,
with none meaning that no number of iterations ever exits. -/
def pickIdx (length : Nat) (used : List Nat) : Nat → Nat → Option (Nat × Nat)
  | 0, _ => none
  | fuel + 1, st =>
    if (mulberryStep st).2 * length / M32 ∈ used then
      pickIdx length used fuel (mulberryStep st).1
    else
      some ((mulberryStep st).1, (mulberryStep st).2 * length / M32)

/-- The outer for loop of selectDistinctIndices, drawing count distinct
indices. -/
def selectLoop (length fuel : Nat) : Nat → Nat → List Nat → Option (List Nat)
  | 0, _, _ => some []
  | count + 1, st, used =>
    match pickIdx length used fuel st with
    | none => none
    | some r =>
      match selectLoop length fuel count r.1 (used ++ [r.2]) with
      | none => none
      | some rest => some (r.2 :: rest)

/-- selectDistinctIndices (engine/src/daily.ts), fuelled. -/
def selectDistinctIndices (length count fuel seed : Nat) : Option (List Nat) :=
  selectLoop length fuel count seed []

/-- The seed input of the server getDailyTargets: the dateKey itself
for English, the dateKey salted with ":ko" for Korean. -/
def seedInput (language : Language) (dateKey : List Nat) : List Nat :=
  match language with
  | .ko => dateKey ++ [Char.toNat ':', Char.toNat 'k', Char.toNat 'o']
  | .en => dateKey

/-- getDailyTargets (server copy): index selection seeded from the
salted dateKey; listLength is the length of the language's answer-word
list, the only property of the list the selection depends on (the
chosen indices are then mapped into the list). -/
def getDailyTargetsIdx (dateKey : List Nat) (language : Language)
    (listLength fuel : Nat) : Option (List Nat) :=
  selectDistinctIndices listLength 4 fuel (dateKeyToSeed (seedInput language dateKey))

/-! ## Specification-side definitions and concrete fixtures -/

/-- The words apple, beach, chair, dance as code-unit lists. -/
def demoTargetsEn : List (List Nat) :=
  [[97, 112, 112, 108, 101], [98, 101, 97, 99, 104],
   [99, 104, 97, 105, 114], [100, 97, 110, 99, 101]]

/-- An English game configuration with default maxGuesses and language. -/
def demoCfgEn : GameConfig :=
  { targetWords := demoTargetsEn, maxGuesses := none, language := none }

/-- The Korean word 가나 (non-word demo target of length 2). -/
def demoKoTarget : List Nat := [44032, 45208]

/-- A Korean game configuration with all four boards set to 가나. -/
def demoCfgKo : GameConfig :=
  { targetWords := [demoKoTarget, demoKoTarget, demoKoTarget, demoKoTarget]
    maxGuesses := none
    language := some .ko }

/-- The normalization order stated by the spec for setCurrentInput:
case-fold the raw string, filter it to the alphabet's legal character
class, then truncate to the word length.  Written from the spec's words
for comparison with the source's setCurrentGuess. -/
def specNormalize (language : Language) (raw : List Nat) : List Nat :=
  ((raw.map toLowerChar).filter (filterCharKeep language)).take (wordLength language)

/-- States reachable from createGame through submitGuess (successful
evaluation) and setCurrentGuess. -/
inductive Reachable : GameState → Prop where
  | init (config : GameConfig) : Reachable (createGame config)
  | submit {s s2 : GameState} (g : List Nat) :
      Reachable s → submitGuess s g = .ok s2 → Reachable s2
  | setCur {s : GameState} (g : List Nat) :
      Reachable s → Reachable (setCurrentGuess s g)

/-- The demo configuration with maxGuesses explicitly 0 (the
destructuring default applies only to a missing field). -/
def demoCfgZero : GameConfig :=
  { targetWords := demoTargetsEn, maxGuesses := some 0, language := none }

/-- Number of positions whose guess symbol is s and whose result is
correct or present. -/
def scoredCount (s : Nat) (guess : List Nat) (res : List LetterResult) : Nat :=
  (guess.zip res).countP (fun p => decide (p.1 = s ∧ p.2 ≠ absent))

/-- Number of exact-match positions whose symbol is s. -/
def matchCount (s : Nat) (pairs : List (Nat × Nat)) : Nat :=
  pairs.countP (fun p => decide (p.1 = p.2 ∧ p.1 = s))

/-- The vowel jamo a syllable contributes to the vowel set. -/
def vowelsOfSyllable (ch : Nat) : List Nat :=
  match decomposeHangul ch with
  | some d => [d.vowel]
  | none => []

/-- The consonant jamo a syllable contributes to the consonant set:
its onset, its coda if any, and the split components of a compound
coda. -/
def consonantsOfSyllable (ch : Nat) : List Nat :=
  match decomposeHangul ch with
  | some d =>
    [d.onset] ++
      (match d.coda with
       | some cd =>
         [cd] ++
           (match splitCompoundCoda cd with
            | some s => [s.1, s.2]
            | none => [])
       | none => [])
  | none => []

/-- Precedence of a letter result: correct > present > absent. -/
def statusRank : LetterResult → Nat
  | correct => 2
  | present => 1
  | absent => 0

/-- The max-precedence merge of two results. -/
def maxStatus (a b : LetterResult) : LetterResult :=
  if statusRank b ≤ statusRank a then a else b

/-- Merging one contribution into an optional accumulated status. -/
def mergeOne (o : Option LetterResult) (r : LetterResult) : LetterResult :=
  match o with
  | none => r
  | some x => maxStatus x r

/-- The tile statuses contributed to key j, in fold order. -/
def keyContribs (state : GameState) (j : Nat) : List LetterResult :=
  (allContribs state).filterMap (fun p => if p.1 = j then some p.2 else none)

/-- Specification form of the keyboard map: the max-precedence merge of
all of key j's contributions (none when j was never contributed). -/
def specKeyboard (state : GameState) (j : Nat) : Option LetterResult :=
  (keyContribs state j).foldl (fun o r => some (mergeOne o r)) none

/-- The Korean demo game after guessing 구수 against four boards of
가나 (falling back to the fresh game on an evaluator error, which does
not occur here). -/
def demoKoGame1 : GameState :=
  match submitGuess (createGame demoCfgKo) [44396, 49688] with
  | .ok g => g
  | .error _ => createGame demoCfgKo

/-! # Theorems -/

/-! ## Hangul codec facts -/

theorem ONSETS_nodup : ONSETS.Nodup := by decide

theorem VOWELS_nodup : VOWELS.Nodup := by decide

theorem CODAS_nodup : CODAS.Nodup := by decide

theorem ONSETS_indexOf_getD : ∀ i : Fin 19, ONSETS.indexOf (ONSETS.getD i.val 0) = i.val := by
  decide

theorem VOWELS_indexOf_getD : ∀ i : Fin 21, VOWELS.indexOf (VOWELS.getD i.val 0) = i.val := by
  decide

theorem CODAS_indexOf_getD : ∀ i : Fin 28, CODAS.indexOf (CODAS.getD i.val 0) = i.val := by
  decide

theorem ONSETS_getD_mem (i : Nat) (h : i < 19) : ONSETS.getD i 0 ∈ ONSETS := by
  have hl : i < ONSETS.length := by simpa [ONSETS] using h
  rw [List.getD_eq_getElem ONSETS 0 hl]
  exact ONSETS.getElem_mem hl

theorem VOWELS_getD_mem (i : Nat) (h : i < 21) : VOWELS.getD i 0 ∈ VOWELS := by
  have hl : i < VOWELS.length := by simpa [VOWELS] using h
  rw [List.getD_eq_getElem VOWELS 0 hl]
  exact VOWELS.getElem_mem hl

theorem CODAS_getD_mem (i : Nat) (h : i < 28) : CODAS.getD i 0 ∈ CODAS := by
  have hl : i < CODAS.length := by simpa [CODAS] using h
  rw [List.getD_eq_getElem CODAS 0 hl]
  exact CODAS.getElem_mem hl

/-- C6: for every composed Hangul syllable (code point U+AC00–U+D7A3),
composing the decomposition yields exactly the original syllable, the
null coda meaning the no-final case. -/
theorem compose_decompose_round_trip (s : Nat)
    (h1 : 0xAC00 ≤ s) (h2 : s ≤ 0xD7A3) :
    (decomposeHangul s).bind (fun d => composeHangul d.onset d.vowel d.coda) = some s := by
  have hsyll : isHangulSyllable s = true := by
    simp only [isHangulSyllable, Bool.and_eq_true, decide_eq_true_eq]
    omega
  have hoi : (s - 44032) / (21 * 28) < 19 := by omega
  have hvi : (s - 44032) % (21 * 28) / 28 < 21 := by omega
  have hci : (s - 44032) % 28 < 28 := by omega
  simp only [decomposeHangul, hsyll, if_true]
  rw [Option.bind]
  simp only [HANGUL_BASE, VOWEL_COUNT, CODA_COUNT]
  by_cases hc0 : (s - 44032) % 28 = 0
  · rw [if_pos hc0]
    simp only [composeHangul, VOWEL_COUNT, CODA_COUNT, HANGUL_BASE]
    rw [if_pos ⟨ONSETS_getD_mem _ hoi, VOWELS_getD_mem _ hvi, by simp⟩]
    rw [ONSETS_indexOf_getD ⟨_, hoi⟩, VOWELS_indexOf_getD ⟨_, hvi⟩]
    simp only [Option.some.injEq]
    omega
  · rw [if_neg hc0]
    simp only [composeHangul, VOWEL_COUNT, CODA_COUNT, HANGUL_BASE]
    rw [if_pos ⟨ONSETS_getD_mem _ hoi, VOWELS_getD_mem _ hvi,
        fun cd hcd => by
          simp only [Option.mem_def, Option.some.injEq] at hcd
          rw [← hcd]
          exact CODAS_getD_mem _ hci⟩]
    rw [ONSETS_indexOf_getD ⟨_, hoi⟩, VOWELS_indexOf_getD ⟨_, hvi⟩]
    simp only [CODAS_indexOf_getD ⟨_, hci⟩, Option.some.injEq]
    omega

/-- C6 witness: round trip at the syllable 한 (U+D55C). -/
theorem compose_decompose_round_trip_witness :
    (decomposeHangul 54620).bind
      (fun d => composeHangul d.onset d.vowel d.coda) = some 54620 :=
  compose_decompose_round_trip 54620 (by decide) (by decide)

/-! ## Case folding facts -/

theorem toLowerChar_idem (c : Nat) : toLowerChar (toLowerChar c) = toLowerChar c := by
  unfold toLowerChar
  by_cases h : 65 ≤ c ∧ c ≤ 90
  · simp only [if_pos h]
    have h2 : ¬(65 ≤ c + 32 ∧ c + 32 ≤ 90) := by omega
    simp only [if_neg h2]
  · simp only [if_neg h]

theorem strToLower_idem (s : List Nat) : strToLower (strToLower s) = strToLower s := by
  simp only [strToLower, List.map_map]
  exact List.map_congr_left (fun c _ => toLowerChar_idem c)

/-- C10: the Latin evaluator is case-insensitive in both arguments,
because both inputs are lowercased internally before comparison. -/
theorem evaluateGuess_case_insensitive (guess target : List Nat) :
    evaluateGuess guess target = evaluateGuess (strToLower guess) (strToLower target) := by
  simp only [evaluateGuess, strToLower_idem]

/-! ## Shared concrete fixtures -/

/-! ## C8: submitGuess is a no-op on finished games and invalid guesses -/

/-- C8: when the game is over, or when validateGuess rejects the guess,
submitGuess returns the same state unchanged. -/
theorem submitGuess_noop (state : GameState) (guess : List Nat)
    (h : state.gameOver = true ∨ validateGuess guess state.language = false) :
    submitGuess state guess = .ok state := by
  rcases h with h | h
  · simp [submitGuess, h]
  · by_cases hg : state.gameOver = true
    · simp [submitGuess, hg]
    · simp [submitGuess, hg, h]

/-- C8 witness: the empty guess fails validation on a fresh English
game, so submitting it returns the same state. -/
theorem submitGuess_noop_witness :
    submitGuess (createGame demoCfgEn) [] = .ok (createGame demoCfgEn) :=
  submitGuess_noop (createGame demoCfgEn) [] (Or.inr (by decide))

/-! ## C9: setCurrentGuess normalization -/

/-- C9 counterexample: on the raw English input a1bcdef the source
truncates before filtering, producing abcd, while the claimed
filter-then-truncate order would produce abcde. -/
theorem setCurrentGuess_order_counterexample :
    (setCurrentGuess (createGame demoCfgEn) [97, 49, 98, 99, 100, 101, 102]).currentGuess
        = [97, 98, 99, 100] ∧
    specNormalize .en [97, 49, 98, 99, 100, 101, 102] = [97, 98, 99, 100, 101] ∧
    ([97, 98, 99, 100] : List Nat) ≠ [97, 98, 99, 100, 101] := by
  refine ⟨by decide, by decide, by decide⟩

/-- C9 amended: setCurrentGuess is the identity on finished games;
otherwise the new currentGuess is the Korean input filtered to Hangul
then truncated, or the English input truncated, lowercased, then
filtered to [a-z]; in both languages the result has only legal
characters and length at most the word length (and the function is
total, so it never throws). -/
theorem setCurrentGuess_amended (state : GameState) (raw : List Nat) :
    (state.gameOver = true → setCurrentGuess state raw = state) ∧
    (state.gameOver = false →
      (setCurrentGuess state raw).currentGuess =
        (if state.language = .ko then
          (raw.filter (filterCharKeep .ko)).take (wordLength .ko)
         else ((raw.take (wordLength .en)).map toLowerChar).filter (filterCharKeep .en)) ∧
      (setCurrentGuess state raw).currentGuess.length ≤ wordLength state.language ∧
      ∀ c ∈ (setCurrentGuess state raw).currentGuess,
        filterCharKeep state.language c = true) := by
  constructor
  · intro h
    simp [setCurrentGuess, h]
  · intro h
    have hout : (setCurrentGuess state raw).currentGuess =
        (if state.language = .ko then
          (raw.filter (filterCharKeep .ko)).take (wordLength .ko)
         else ((raw.take (wordLength .en)).map toLowerChar).filter (filterCharKeep .en)) := by
      simp [setCurrentGuess, h]
    refine ⟨hout, ?_, ?_⟩
    · rw [hout]
      cases hl : state.language
      · rw [if_neg (by simp)]
        calc (((raw.take (wordLength .en)).map toLowerChar).filter
                (filterCharKeep .en)).length
            ≤ ((raw.take (wordLength .en)).map toLowerChar).length :=
              List.length_filter_le _ _
          _ = (raw.take (wordLength .en)).length := List.length_map _ _
          _ ≤ wordLength .en := List.length_take_le _ _
      · rw [if_pos rfl]
        exact List.length_take_le _ _
    · intro c hc
      rw [hout] at hc
      cases hl : state.language
      · rw [hl, if_neg (by simp)] at hc
        exact List.of_mem_filter hc
      · rw [hl, if_pos rfl] at hc
        exact List.of_mem_filter (List.take_subset _ _ hc)

/-- C9 amended witness: on a fresh English game the normalized input
has length at most 5. -/
theorem setCurrentGuess_amended_witness :
    (setCurrentGuess (createGame demoCfgEn) [97, 49, 98, 99, 100, 101, 102]).currentGuess.length
      ≤ wordLength (createGame demoCfgEn).language :=
  ((setCurrentGuess_amended (createGame demoCfgEn)
      [97, 49, 98, 99, 100, 101, 102]).2 rfl).2.1

/-! ## C7: game-over and won invariants over reachable states -/

theorem mapBoards_ok_length {f : BoardState → Except String BoardState}
    {l : List BoardState} {l2 : List BoardState} (h : mapBoards f l = .ok l2) :
    l2.length = l.length := by
  induction l generalizing l2 with
  | nil =>
    simp only [mapBoards, Except.ok.injEq] at h
    rw [← h]
  | cons b rest ih =>
    unfold mapBoards at h
    cases hf : f b with
    | error e => rw [hf] at h; exact absurd h (by simp)
    | ok b2 =>
      rw [hf] at h
      cases hr : mapBoards f rest with
      | error e => rw [hr] at h; exact absurd h (by simp)
      | ok rest2 =>
        rw [hr] at h
        simp only [Except.ok.injEq] at h
        rw [← h]
        simp [ih hr]

theorem setCurrentGuess_fields (s : GameState) (g : List Nat) :
    (setCurrentGuess s g).gameOver = s.gameOver ∧
    (setCurrentGuess s g).won = s.won ∧
    (setCurrentGuess s g).guessCount = s.guessCount ∧
    (setCurrentGuess s g).maxGuesses = s.maxGuesses ∧
    (setCurrentGuess s g).boards = s.boards := by
  unfold setCurrentGuess
  split
  · exact ⟨rfl, rfl, rfl, rfl, rfl⟩
  · exact ⟨rfl, rfl, rfl, rfl, rfl⟩

/-- A successful submitGuess is either a no-op or the full update with
the recomputed counters and flags. -/
theorem submitGuess_ok_cases {s s2 : GameState} {g : List Nat}
    (h : submitGuess s g = .ok s2) :
    s2 = s ∨
    ∃ newBoards,
      mapBoards (processBoard s.language s.guessCount
          (if s.language = .ko then g else strToLower g)) s.boards = .ok newBoards ∧
      s2 = { s with
             boards := newBoards
             currentGuess := []
             guessCount := s.guessCount + 1
             gameOver := newBoards.all (fun b => b.solved)
                           || decide (s.guessCount + 1 ≥ s.maxGuesses)
             won := newBoards.all (fun b => b.solved) } := by
  by_cases hg : s.gameOver = true
  · left
    simp only [submitGuess, hg, if_true, Except.ok.injEq] at h
    exact h.symm
  · by_cases hv : validateGuess g s.language = true
    · right
      simp only [submitGuess, hg, if_false, hv, Bool.not_true, Bool.false_eq_true] at h
      cases hm : mapBoards (processBoard s.language s.guessCount
          (if s.language = .ko then g else strToLower g)) s.boards with
      | error e => rw [hm] at h; exact absurd h (by simp)
      | ok nb =>
        rw [hm] at h
        simp only [Except.ok.injEq] at h
        exact ⟨nb, rfl, h.symm⟩
    · left
      have hv2 : validateGuess g s.language = false := by
        cases hvv : validateGuess g s.language
        · rfl
        · exact absurd hvv hv
      simp [submitGuess, hg, hv2] at h
      exact h.symm

/-- C7 amended: for every game created with maxGuesses ≥ 1 (the
destructuring default is 9), every state reachable through submitGuess
and setCurrentGuess satisfies: gameOver holds iff the game is won or
the guess count has reached maxGuesses, and won holds iff all four
boards are solved.  (With maxGuesses = 0 the claim fails already at the
initial state, see the counterexample.) -/
theorem game_invariants (s : GameState) (hs : Reachable s)
    (hmax : 1 ≤ s.maxGuesses) :
    (s.gameOver = true ↔ (s.won = true ∨ s.guessCount ≥ s.maxGuesses)) ∧
    (s.won = true ↔ ∀ b ∈ s.boards, b.solved = true) ∧
    s.boards.length = 4 := by
  revert hmax
  induction hs with
  | init config =>
    intro hmax
    refine ⟨?_, ?_, by simp [createGame]⟩
    · simp only [createGame] at hmax ⊢
      constructor
      · intro hcontra; exact absurd hcontra (by simp)
      · rintro (hw | hc)
        · exact absurd hw (by simp)
        · omega
    · constructor
      · intro hw; exact absurd hw (by simp [createGame])
      · intro hall
        have := hall (createBoardState (config.targetWords.getD 0 []))
          (by simp [createGame])
        exact absurd this (by simp [createBoardState])
  | submit g hr hok ih =>
    intro hmax
    rcases submitGuess_ok_cases hok with heq | ⟨nb, hm, heq⟩
    · subst heq
      exact ih hmax
    · subst heq
      have hlen : nb.length = 4 := by
        rw [mapBoards_ok_length hm]
        exact (ih (by simpa using hmax)).2.2
      refine ⟨?_, ?_, hlen⟩
      · simp only [Bool.or_eq_true, decide_eq_true_eq, ge_iff_le]
      · exact List.all_eq_true
  | setCur g hr ih =>
    intro hmax
    obtain ⟨h1, h2, h3, h4, h5⟩ := setCurrentGuess_fields _ g
    rw [h1, h2, h3, h4, h5]
    exact ih (by rwa [h4] at hmax)

/-- C7 amended witness: the invariants at the fresh default game. -/
theorem game_invariants_witness :
    ((createGame demoCfgEn).gameOver = true ↔
      ((createGame demoCfgEn).won = true ∨
        (createGame demoCfgEn).guessCount ≥ (createGame demoCfgEn).maxGuesses)) ∧
    ((createGame demoCfgEn).won = true ↔
      ∀ b ∈ (createGame demoCfgEn).boards, b.solved = true) ∧
    (createGame demoCfgEn).boards.length = 4 :=
  game_invariants (createGame demoCfgEn) (Reachable.init demoCfgEn) (by decide)

/-- C7 counterexample: with maxGuesses = 0, createGame itself (a
reachable state, by the empty operation sequence) has gameOver = false
although guessCount ≥ maxGuesses, so the claimed equivalence fails. -/
theorem game_invariants_counterexample :
    (createGame demoCfgZero).gameOver = false ∧
    (createGame demoCfgZero).guessCount ≥ (createGame demoCfgZero).maxGuesses := by
  refine ⟨by decide, by decide⟩

/-! ## C5: multiset conservation of the two-pass evaluator -/

theorem pass1_fst (pairs : List (Nat × Nat)) (cnt : Nat → Int) :
    (pass1 pairs cnt).1
      = pairs.map (fun p => if p.1 = p.2 then correct else absent) := by
  induction pairs generalizing cnt with
  | nil => rfl
  | cons p rest ih =>
    obtain ⟨g, t⟩ := p
    simp only [pass1, List.map_cons]
    by_cases h : g = t
    · simp only [if_pos h, ih]
    · simp only [if_neg h, ih]

theorem updFun_self (f : Nat → Int) (k : Nat) (v : Int) : updFun f k v k = v := by
  unfold updFun
  rw [if_pos rfl]

theorem updFun_other (f : Nat → Int) (k : Nat) (v : Int) (x : Nat) (h : ¬x = k) :
    updFun f k v x = f x := by
  unfold updFun
  rw [if_neg h]

theorem matchCount_cons (s g t : Nat) (rest : List (Nat × Nat)) :
    matchCount s ((g, t) :: rest)
      = matchCount s rest + (if g = t ∧ g = s then 1 else 0) := by
  unfold matchCount
  rw [List.countP_cons]
  by_cases h : g = t ∧ g = s <;> simp [h]

theorem pass1_snd (pairs : List (Nat × Nat)) (cnt : Nat → Int) (s : Nat) :
    (pass1 pairs cnt).2 s = cnt s - matchCount s pairs := by
  induction pairs generalizing cnt with
  | nil => simp [pass1, matchCount]
  | cons p rest ih =>
    obtain ⟨g, t⟩ := p
    simp only [pass1]
    by_cases h : g = t
    · rw [if_pos h, ih, matchCount_cons]
      by_cases hs : g = s
      · rw [if_pos ⟨h, hs⟩, ← hs, updFun_self]
        push_cast
        ring
      · rw [if_neg (fun hh => hs hh.2),
          updFun_other _ _ _ _ (fun hh : s = g => hs hh.symm)]
        push_cast
        ring
    · rw [if_neg h, ih, matchCount_cons, if_neg (fun hh => h hh.1)]
      push_cast
      ring

theorem countsInit_go (l : List Nat) (f : Nat → Int) (s : Nat) :
    (l.foldl (fun f ch => updFun f ch (f ch + 1)) f) s = f s + l.count s := by
  induction l generalizing f with
  | nil => simp
  | cons c rest ih =>
    simp only [List.foldl_cons]
    rw [ih]
    by_cases h : s = c
    · rw [← h, updFun_self]
      simp only [List.count_cons, beq_self_eq_true, if_true]
      push_cast
      ring
    · rw [updFun_other _ _ _ _ h]
      have hbeq : (c == s) = false := by
        simp only [beq_eq_false_iff_ne, ne_eq]
        exact fun hh => h hh.symm
      simp only [List.count_cons, hbeq, if_false]
      push_cast
      ring

theorem countsInit_eq (target : List Nat) (s : Nat) :
    countsInit target s = (target.count s : Int) := by
  unfold countsInit
  rw [countsInit_go]
  simp

theorem pass2_present_bound (pairs : List (Nat × LetterResult)) (cnt : Nat → Int)
    (s : Nat) :
    ((((pairs.map Prod.fst).zip (pass2 pairs cnt)).countP
        (fun p => decide (p.1 = s ∧ p.2 = present)) : Nat) : Int) ≤ max (cnt s) 0 := by
  induction pairs generalizing cnt with
  | nil =>
    simp [pass2]
  | cons p rest ih =>
    obtain ⟨g, r⟩ := p
    simp only [pass2, List.map_cons]
    by_cases hr : r = correct
    · rw [if_pos hr]
      rw [List.zip_cons_cons, List.countP_cons]
      have hhead : (decide ((g, correct).1 = s ∧ (g, correct).2 = present)) = false := by
        simp
      rw [hhead]
      simpa using ih cnt
    · rw [if_neg hr]
      by_cases hc : cnt g > 0
      · rw [if_pos hc]
        rw [List.zip_cons_cons, List.countP_cons]
        by_cases hgs : g = s
        · subst hgs
          have hhead : (decide ((g, present).1 = g ∧ (g, present).2 = present)) = true := by
            simp
          rw [hhead]
          have hb := ih (updFun cnt g (cnt g - 1))
          have h2 : (updFun cnt g (cnt g - 1)) g = cnt g - 1 := by simp [updFun]
          rw [h2] at hb
          push_cast
          omega
        · have hhead : (decide ((g, present).1 = s ∧ (g, present).2 = present)) = false := by
            simp [hgs]
          rw [hhead]
          have hb := ih (updFun cnt g (cnt g - 1))
          rw [updFun_other _ _ _ _ (fun hh : s = g => hgs hh.symm)] at hb
          simpa using hb
      · rw [if_neg hc]
        rw [List.zip_cons_cons, List.countP_cons]
        have hhead : (decide ((g, absent).1 = s ∧ (g, absent).2 = present)) = false := by
          simp
        rw [hhead]
        simpa using ih cnt

theorem pass2_correct_count (pairs : List (Nat × LetterResult)) (cnt : Nat → Int)
    (s : Nat) :
    ((pairs.map Prod.fst).zip (pass2 pairs cnt)).countP
        (fun p => decide (p.1 = s ∧ p.2 = correct))
      = pairs.countP (fun p => decide (p.1 = s ∧ p.2 = correct)) := by
  induction pairs generalizing cnt with
  | nil => simp [pass2]
  | cons p rest ih =>
    obtain ⟨g, r⟩ := p
    simp only [pass2, List.map_cons]
    by_cases hr : r = correct
    · subst hr
      rw [if_pos rfl]
      rw [List.zip_cons_cons, List.countP_cons, List.countP_cons]
      rw [ih cnt]
    · rw [if_neg hr]
      by_cases hc : cnt g > 0
      · rw [if_pos hc]
        rw [List.zip_cons_cons, List.countP_cons, List.countP_cons]
        have h1 : (decide ((g, present).1 = s ∧ (g, present).2 = correct)) = false := by
          simp
        have h2 : (decide ((g, r).1 = s ∧ (g, r).2 = correct)) = false := by
          simp [hr]
        rw [h1, h2, ih]
      · rw [if_neg hc]
        rw [List.zip_cons_cons, List.countP_cons, List.countP_cons]
        have h1 : (decide ((g, absent).1 = s ∧ (g, absent).2 = correct)) = false := by
          simp
        have h2 : (decide ((g, r).1 = s ∧ (g, r).2 = correct)) = false := by
          simp [hr]
        rw [h1, h2, ih]

theorem scored_split (l : List (Nat × LetterResult)) (s : Nat) :
    l.countP (fun p => decide (p.1 = s ∧ p.2 ≠ absent))
      = l.countP (fun p => decide (p.1 = s ∧ p.2 = correct))
        + l.countP (fun p => decide (p.1 = s ∧ p.2 = present)) := by
  induction l with
  | nil => rfl
  | cons p rest ih =>
    obtain ⟨g, r⟩ := p
    simp only [List.countP_cons]
    rw [ih]
    cases r <;> by_cases hg : g = s <;> simp [hg] <;> omega

theorem evalCore_conservation (guess target : List Nat)
    (hlen : guess.length = target.length) (s : Nat) :
    scoredCount s guess (evalCore guess target) ≤ target.count s := by
  have hguess : (guess.zip target).map Prod.fst = guess :=
    List.map_fst_zip _ _ (le_of_eq hlen)
  have htarget : (guess.zip target).map Prod.snd = target :=
    List.map_snd_zip _ _ (le_of_eq hlen.symm)
  have hpairs2 := List.zip_map' Prod.fst
    (fun p => if p.1 = p.2 then correct else absent) (guess.zip target)
  rw [hguess] at hpairs2
  have hfst2 : ((guess.zip target).map
        (fun p => (p.1, if p.1 = p.2 then correct else absent))).map Prod.fst
      = guess := by
    rw [List.map_map]
    exact hguess
  -- the final output
  have hcore : evalCore guess target
      = pass2 ((guess.zip target).map
          (fun p => (p.1, if p.1 = p.2 then correct else absent)))
          ((pass1 (guess.zip target) (countsInit target)).2) := by
    show pass2 (guess.zip (pass1 (guess.zip target) (countsInit target)).1)
        ((pass1 (guess.zip target) (countsInit target)).2) = _
    rw [pass1_fst, hpairs2]
  rw [scoredCount, hcore]
  have hzipeq : guess.zip (pass2 ((guess.zip target).map
          (fun p => (p.1, if p.1 = p.2 then correct else absent)))
          ((pass1 (guess.zip target) (countsInit target)).2))
      = (((guess.zip target).map
          (fun p => (p.1, if p.1 = p.2 then correct else absent))).map Prod.fst).zip
          (pass2 ((guess.zip target).map
            (fun p => (p.1, if p.1 = p.2 then correct else absent)))
            ((pass1 (guess.zip target) (countsInit target)).2)) := by
    rw [hfst2]
  rw [hzipeq, scored_split, pass2_correct_count]
  -- the correct part equals the exact-match count
  have hcorr : (((guess.zip target).map
        (fun p => (p.1, if p.1 = p.2 then correct else absent))).countP
        (fun p => decide (p.1 = s ∧ p.2 = correct)))
      = matchCount s (guess.zip target) := by
    rw [List.countP_map, matchCount]
    apply List.countP_congr
    intro p _
    by_cases h1 : p.1 = p.2 <;> by_cases h2 : p.1 = s <;>
      simp [Function.comp, h1, h2]
  rw [hcorr]
  -- the exact-match count is bounded by the target count
  have hmc : matchCount s (guess.zip target) ≤ target.count s := by
    rw [matchCount]
    calc (guess.zip target).countP (fun p => decide (p.1 = p.2 ∧ p.1 = s))
        ≤ (guess.zip target).countP (fun p => p.2 == s) := by
          apply List.countP_mono_left
          intro p _ hp
          simp only [decide_eq_true_eq] at hp
          simp [← hp.1, hp.2]
      _ = target.count s := by
          rw [List.count_eq_countP]
          conv_rhs => rw [← htarget]
          rw [List.countP_map]
          apply List.countP_congr
          intro p _
          simp [Function.comp]
  -- the present part is bounded by the remaining pool
  have hpres := pass2_present_bound ((guess.zip target).map
      (fun p => (p.1, if p.1 = p.2 then correct else absent)))
      ((pass1 (guess.zip target) (countsInit target)).2) s
  rw [pass1_snd, countsInit_eq] at hpres
  have hmax : max ((target.count s : Int) - matchCount s (guess.zip target)) 0
      = (target.count s : Int) - matchCount s (guess.zip target) := by
    apply max_eq_left
    have : (matchCount s (guess.zip target) : Int) ≤ (target.count s : Int) := by
      exact_mod_cast hmc
    omega
  rw [hmax] at hpres
  omega

/-- C5: for every equal-length guess/target pair and every symbol, the
number of positions scored correct or present for that symbol never
exceeds the symbol's count in the target — for the Korean syllable
evaluator on its syllables, and for the Latin evaluator on its
internally lowercased symbols. -/
theorem multiset_conservation :
    (∀ guess target res s, evaluateGuessSyllable guess target = .ok res →
        scoredCount s guess res ≤ target.count s) ∧
    (∀ guess target res s, evaluateGuess guess target = .ok res →
        scoredCount s (strToLower guess) res ≤ (strToLower target).count s) := by
  constructor
  · intro guess target res s h
    unfold evaluateGuessSyllable at h
    by_cases hl : guess.length = target.length
    · rw [if_neg (fun hne => hne hl)] at h
      simp only [Except.ok.injEq] at h
      rw [← h]
      exact evalCore_conservation guess target hl s
    · rw [if_pos hl] at h
      exact absurd h (by simp)
  · intro guess target res s h
    unfold evaluateGuess at h
    by_cases hl : (strToLower guess).length = (strToLower target).length
    · rw [if_neg (fun hne => hne hl)] at h
      simp only [Except.ok.injEq] at h
      rw [← h]
      exact evalCore_conservation _ _ hl s
    · rw [if_pos hl] at h
      exact absurd h (by simp)

/-- C5 witness: conservation at the llama/plate pair (one l in the
target, two scored-or-better l positions impossible) and at a Korean
pair with a duplicated syllable. -/
theorem multiset_conservation_witness :
    scoredCount 108 (strToLower [108, 108, 97, 109, 97])
        [absent, correct, correct, absent, absent]
      ≤ (strToLower [112, 108, 97, 116, 101]).count 108 ∧
    scoredCount 45208 [45208, 44032] [present, present]
      ≤ ([44032, 45208] : List Nat).count 45208 := by
  constructor
  · exact multiset_conservation.2 [108, 108, 97, 109, 97] [112, 108, 97, 116, 101]
      [absent, correct, correct, absent, absent] 108 (by rfl)
  · exact multiset_conservation.1 [45208, 44032] [44032, 45208]
      [present, present] 45208 (by rfl)

/-! ## C1: the jamo-hint layer uses whole-target sets, not pre-consumed
multiset pools -/

theorem decomposeHangul_of_isHangul {ch : Nat} (h : isHangulSyllable ch = true) :
    decomposeHangul ch ≠ none := by
  simp [decomposeHangul, h]

theorem jamoSetsStep_eq (acc : List Nat × List Nat) (ch : Nat) :
    jamoSetsStep acc ch
      = (acc.1 ++ vowelsOfSyllable ch, acc.2 ++ consonantsOfSyllable ch) := by
  by_cases hh : isHangulSyllable ch = true
  · cases hd : decomposeHangul ch with
    | none => exact absurd hd (decomposeHangul_of_isHangul hh)
    | some d =>
      simp only [jamoSetsStep, hh, if_true, hd, vowelsOfSyllable, consonantsOfSyllable]
      cases hc : d.coda with
      | none => simp
      | some cd =>
        cases hs : splitCompoundCoda cd with
        | none => simp [hs]
        | some s => simp [hs]
  · have hh2 : isHangulSyllable ch = false := by
      cases hb : isHangulSyllable ch
      · rfl
      · exact absurd hb hh
    have hd : decomposeHangul ch = none := by
      simp [decomposeHangul, hh2]
    simp [jamoSetsStep, hh2, vowelsOfSyllable, consonantsOfSyllable, hd]

theorem targetJamoSets_eq (target : List Nat) :
    targetJamoSets target
      = (target.flatMap vowelsOfSyllable, target.flatMap consonantsOfSyllable) := by
  suffices h : ∀ acc : List Nat × List Nat,
      target.foldl jamoSetsStep acc
        = (acc.1 ++ target.flatMap vowelsOfSyllable,
           acc.2 ++ target.flatMap consonantsOfSyllable) by
    simpa [targetJamoSets] using h ([], [])
  induction target with
  | nil => intro acc; simp
  | cons ch rest ih =>
    intro acc
    simp only [List.foldl_cons, jamoSetsStep_eq, ih, List.flatMap_cons,
      List.append_assoc]

/-- C1 amended: the jamo layer awards present purely by membership in
the whole-target jamo sets (no pre-consumption, no multiset bound),
and membership is sound: every present award corresponds to a real
occurrence of that jamo among the target's onsets/vowels/codas and
split compound-coda components — including those of syllables whose
syllable-level result is correct. -/
theorem jamoHints_present_sound (g t : Nat) (target : List Nat) :
    ((computeJamoHints g t (targetJamoSets target).1 (targetJamoSets target).2).onset
        = present →
      ∃ gd, decomposeHangul g = some gd ∧
        ∃ ch ∈ target, gd.onset ∈ consonantsOfSyllable ch) ∧
    ((computeJamoHints g t (targetJamoSets target).1 (targetJamoSets target).2).vowel
        = present →
      ∃ gd, decomposeHangul g = some gd ∧
        ∃ ch ∈ target, gd.vowel ∈ vowelsOfSyllable ch) ∧
    ((computeJamoHints g t (targetJamoSets target).1 (targetJamoSets target).2).coda
        = some present →
      ∃ gd cd, decomposeHangul g = some gd ∧ gd.coda = some cd ∧
        ((∃ ch ∈ target, cd ∈ consonantsOfSyllable ch) ∨
          ∃ s2, splitCompoundCoda cd = some s2 ∧
            ((∃ ch ∈ target, s2.1 ∈ consonantsOfSyllable ch) ∨
              (∃ ch ∈ target, s2.2 ∈ consonantsOfSyllable ch)))) := by
  by_cases hb : isHangulSyllable g = true ∧ isHangulSyllable t = true
  · cases hgd : decomposeHangul g with
    | none => exact absurd hgd (decomposeHangul_of_isHangul hb.1)
    | some gd =>
      cases htd : decomposeHangul t with
      | none => exact absurd htd (decomposeHangul_of_isHangul hb.2)
      | some td =>
        simp only [computeJamoHints, hb, if_true, hgd, htd, targetJamoSets_eq,
          List.mem_flatMap]
        refine ⟨?_, ?_, ?_⟩
        · by_cases h1 : gd.onset = td.onset
          · simp [h1]
          · by_cases h2 : ∃ ch, ch ∈ target ∧ gd.onset ∈ consonantsOfSyllable ch
            · intro _
              exact ⟨gd, rfl, by simpa using h2⟩
            · simp [h1, h2]
        · by_cases h1 : gd.vowel = td.vowel
          · simp [h1]
          · by_cases h2 : ∃ ch, ch ∈ target ∧ gd.vowel ∈ vowelsOfSyllable ch
            · intro _
              exact ⟨gd, rfl, by simpa using h2⟩
            · simp [h1, h2]
        · cases hgc : gd.coda with
          | none => simp
          | some gc =>
            by_cases h1 : some gc = td.coda
            · simp [h1]
            · by_cases h2 : ∃ ch, ch ∈ target ∧ gc ∈ consonantsOfSyllable ch
              · intro _
                exact ⟨gd, gc, rfl, hgc, Or.inl (by simpa using h2)⟩
              · cases hs : splitCompoundCoda gc with
                | none => simp [h1, h2, hs]
                | some s2 =>
                  by_cases h3 :
                      (∃ ch, ch ∈ target ∧ s2.1 ∈ consonantsOfSyllable ch) ∨
                        ∃ ch, ch ∈ target ∧ s2.2 ∈ consonantsOfSyllable ch
                  · intro _
                    exact ⟨gd, gc, rfl, hgc,
                      Or.inr ⟨s2, hs, by simpa using h3⟩⟩
                  · simp [h1, h2, hs, h3]
  · simp only [computeJamoHints, hb, if_false]
    refine ⟨?_, ?_, ?_⟩ <;> intro hcontra <;> exact absurd hcontra (by simp)

/-- C1 amended witness: for guess syllable 구 against target 가나, the
onset hint is present and ㄱ indeed occurs in the target (as the onset
of the fully-correct syllable 가). -/
theorem jamoHints_present_sound_witness :
    ∃ gd, decomposeHangul 44396 = some gd ∧
      ∃ ch ∈ [44032, 45208], gd.onset ∈ consonantsOfSyllable ch :=
  (jamoHints_present_sound 44396 45208 [44032, 45208]).1 (by rfl)

/-- C1 counterexample: guess 가구 against target 가나.  Position 0 is a
fully-correct syllable, and ㄱ occurs in the target only there (it is
not among 나's consonants), yet position 1's onset ㄱ is still awarded
present — the correct syllable's jamo were not pre-consumed from any
pool. -/
theorem jamo_preconsume_counterexample :
    evaluateGuessKo [44032, 44396] [44032, 45208]
        = .ok [{ syllable := correct, jamoHints := none },
               { syllable := absent
                 jamoHints := some { onset := present, vowel := absent, coda := none } }] ∧
    (decomposeHangul 44032).map (fun d => d.onset) = some 12593 ∧
    12593 ∉ consonantsOfSyllable 45208 := by
  refine ⟨by rfl, by rfl, by decide⟩

/-! ## C2: the keyboard map merges syllable-layer results -/

theorem mergeStatus_at (m : Nat → Option LetterResult) (p : Nat × LetterResult)
    (j : Nat) :
    mergeStatus m p j = if p.1 = j then some (mergeOne (m j) p.2) else m j := by
  obtain ⟨k, r⟩ := p
  by_cases hj : k = j
  · subst hj
    cases r with
    | correct =>
      cases hm : m k with
      | none => simp [mergeStatus, mergeOne, maxStatus, statusRank, hm]
      | some x => cases x <;> simp [mergeStatus, mergeOne, maxStatus, statusRank, hm]
    | present =>
      cases hm : m k with
      | none => simp [mergeStatus, mergeOne, maxStatus, statusRank, hm]
      | some x => cases x <;> simp [mergeStatus, mergeOne, maxStatus, statusRank, hm]
    | absent =>
      cases hm : m k with
      | none => simp [mergeStatus, mergeOne, maxStatus, statusRank, hm]
      | some x => cases x <;> simp [mergeStatus, mergeOne, maxStatus, statusRank, hm]
  · have hj2 : ¬j = k := fun hh => hj hh.symm
    cases r with
    | correct => simp [mergeStatus, hj, hj2]
    | present =>
      cases hm : m k with
      | none => simp [mergeStatus, hj, hj2, hm]
      | some x => cases x <;> simp [mergeStatus, hj, hj2, hm]
    | absent =>
      cases hm : m k with
      | none => simp [mergeStatus, hj, hj2, hm]
      | some x => cases x <;> simp [mergeStatus, hj, hj2, hm]

theorem foldl_mergeStatus (l : List (Nat × LetterResult))
    (m : Nat → Option LetterResult) (j : Nat) :
    (l.foldl mergeStatus m) j
      = (l.filterMap (fun p => if p.1 = j then some p.2 else none)).foldl
          (fun o r => some (mergeOne o r)) (m j) := by
  induction l generalizing m with
  | nil => rfl
  | cons p rest ih =>
    rw [List.foldl_cons, ih, List.filterMap_cons]
    by_cases hj : p.1 = j
    · rw [if_pos hj, List.foldl_cons, mergeStatus_at, if_pos hj]
    · rw [if_neg hj, mergeStatus_at, if_neg hj]

/-- C2 amended: for every game (in particular every Korean one),
computeKeyboardMap assigns each key the max-precedence merge
(correct > present > absent) of the SYLLABLE-layer tile results of the
pre-solve guess positions contributing that key — for Korean, each
jamo of a guess syllable inherits that syllable's syllable-layer
result; the jamo-layer hints are not consulted. -/
theorem computeKeyboardMap_eq_spec (state : GameState) (j : Nat) :
    computeKeyboardMap state j = specKeyboard state j := by
  unfold computeKeyboardMap specKeyboard keyContribs
  exact foldl_mergeStatus _ _ j

/-- C2 counterexample: in the Korean demo game, the jamo layer marks
the guessed onset ㄱ (12593) correct at position 0 — so a jamo-layer
merge would map ㄱ to correct — but computeKeyboardMap returns absent
for ㄱ, because it merges the syllable-layer results (both syllables
absent). -/
theorem keyboard_jamo_layer_counterexample :
    submitGuess (createGame demoCfgKo) [44396, 49688] = .ok demoKoGame1 ∧
    computeKeyboardMap demoKoGame1 12593 = some absent ∧
    (demoKoGame1.boards.headD (createBoardState [])).koResults
      = [[{ syllable := absent
            jamoHints := some { onset := correct, vowel := absent, coda := none } },
          { syllable := absent
            jamoHints := some { onset := absent, vowel := absent, coda := none } }]] := by
  refine ⟨by rfl, by rfl, by rfl⟩

/-! ## C3: per-alphabet daily seed salt -/

/-- C3: the Korean seed input is the dateKey salted with ":ko" and is
never equal to the Latin seed input (the dateKey itself), so the two
alphabets' selections are driven by distinguishable seed inputs; and
the selection is a pure function of dateKey and language, so repeated
calls agree. -/
theorem daily_seed_salted :
    (∀ dateKey : List Nat,
      (seedInput .ko dateKey == seedInput .en dateKey) = false) ∧
    (∀ (dateKey : List Nat) (language : Language) (listLength fuel : Nat),
      getDailyTargetsIdx dateKey language listLength fuel
        = getDailyTargetsIdx dateKey language listLength fuel) := by
  constructor
  · intro d
    rw [beq_eq_false_iff_ne]
    intro h
    have hl := congrArg List.length h
    simp [seedInput] at hl
  · intro _ _ _ _
    rfl

/-! ## C4: the selector does not raise on short answer lists — it
fails to terminate -/

theorem mulberryStep_out_lt (st : Nat) : (mulberryStep st).2 < M32 := by
  have h32 : M32 = 2 ^ 32 := by norm_num [M32]
  unfold mulberryStep
  simp only []
  apply Nat.lt_of_lt_of_le (m := 2 ^ 32) _ (le_of_eq h32.symm)
  apply Nat.xor_lt_two_pow
  · apply Nat.xor_lt_two_pow
    · rw [← h32]
      exact Nat.mod_lt _ (by norm_num [M32])
    · rw [← h32]
      exact Nat.mod_lt _ (by norm_num [M32])
  · apply Nat.lt_of_le_of_lt (Nat.div_le_self _ _)
    apply Nat.xor_lt_two_pow
    · rw [← h32]
      exact Nat.mod_lt _ (by norm_num [M32])
    · rw [← h32]
      exact Nat.mod_lt _ (by norm_num [M32])

theorem pickIdx_ok {length : Nat} {used : List Nat} {fuel st st2 idx : Nat}
    (h : pickIdx length used fuel st = some (st2, idx)) :
    idx ∉ used ∧ idx < max length 1 := by
  induction fuel generalizing st with
  | zero => exact absurd h (by simp [pickIdx])
  | succ f ih =>
    unfold pickIdx at h
    by_cases hm : (mulberryStep st).2 * length / M32 ∈ used
    · rw [if_pos hm] at h
      exact ih h
    · rw [if_neg hm] at h
      simp only [Option.some.injEq, Prod.mk.injEq] at h
      obtain ⟨_, hidx⟩ := h
      subst hidx
      refine ⟨hm, ?_⟩
      rcases Nat.eq_zero_or_pos length with h0 | hpos
      · subst h0
        simp
      · have hu := mulberryStep_out_lt st
        have h1 : (mulberryStep st).2 * length < M32 * length :=
          Nat.mul_lt_mul_of_pos_right hu hpos
        have h2 : (mulberryStep st).2 * length / M32 < length := by
          rw [Nat.div_lt_iff_lt_mul (by norm_num [M32])]
          rw [Nat.mul_comm length M32]
          exact h1
        omega

theorem selectLoop_ok (length fuel : Nat) :
    ∀ (count st : Nat) (used l : List Nat),
      selectLoop length fuel count st used = some l →
      l.length = count ∧ l.Nodup ∧ ∀ x ∈ l, x ∉ used ∧ x < max length 1 := by
  intro count
  induction count with
  | zero =>
    intro st used l h
    simp only [selectLoop, Option.some.injEq] at h
    subst h
    exact ⟨rfl, List.nodup_nil, by simp⟩
  | succ c ih =>
    intro st used l h
    unfold selectLoop at h
    cases hp : pickIdx length used fuel st with
    | none => simp [hp] at h
    | some r =>
      simp only [hp] at h
      cases hr : selectLoop length fuel c r.1 (used ++ [r.2]) with
      | none => simp [hr] at h
      | some rest =>
        simp only [hr, Option.some.injEq] at h
        subst h
        obtain ⟨hpm, hpb⟩ := pickIdx_ok hp
        obtain ⟨hl1, hl2, hl3⟩ := ih r.1 (used ++ [r.2]) rest hr
        refine ⟨by simp [hl1], ?_, ?_⟩
        · rw [List.nodup_cons]
          refine ⟨?_, hl2⟩
          intro hmem
          have := (hl3 r.2 hmem).1
          simp at this
        · intro x hx
          rcases List.mem_cons.mp hx with hx1 | hx2
          · subst hx1
            exact ⟨hpm, hpb⟩
          · obtain ⟨hxu, hxb⟩ := hl3 x hx2
            exact ⟨fun hc => hxu (List.mem_append_left _ hc), hxb⟩

/-- C4: when the answer-word list has fewer than 4 entries, the daily
selector does not raise any error — the rejection-sampling loop never
terminates (it returns none for every fuel bound); no NotEnoughAnswers
error exists in the code. -/
theorem getDailyTargetsIdx_diverges (dateKey : List Nat) (language : Language)
    (listLength : Nat) (hlen : listLength < 4) (fuel : Nat) :
    getDailyTargetsIdx dateKey language listLength fuel = none := by
  unfold getDailyTargetsIdx selectDistinctIndices
  cases hsel : selectLoop listLength fuel 4
      (dateKeyToSeed (seedInput language dateKey)) [] with
  | none => rfl
  | some l =>
    exfalso
    obtain ⟨hl1, hl2, hl3⟩ := selectLoop_ok listLength fuel 4
      (dateKeyToSeed (seedInput language dateKey)) [] l hsel
    have hbound : ∀ x ∈ l, x < 3 := by
      intro x hx
      have := (hl3 x hx).2
      omega
    have hcard : l.toFinset.card = l.length := List.toFinset_card_of_nodup hl2
    have hsub : l.toFinset ⊆ Finset.range 3 := by
      intro x hx
      exact Finset.mem_range.mpr (hbound x (List.mem_toFinset.mp hx))
    have hle := Finset.card_le_card hsub
    rw [hcard, hl1, Finset.card_range] at hle
    omega

/-- C4 witness: a one-word list never yields a selection, whatever the
fuel. -/
theorem getDailyTargetsIdx_diverges_witness :
    getDailyTargetsIdx [50, 48, 50, 54] .en 1 30 = none :=
  getDailyTargetsIdx_diverges [50, 48, 50, 54] .en 1 (by decide) 30

end Quordle
